import Mathlib

/-
Shallow embedding of the ranking-and-resampling core of the repository:
number_density/nz_hyperrank/nz_hyperrank_swc.py (the hyperrank module) and
utility/rename_section.py.  numpy float arrays are embedded as Lists of
exact rationals; numpy operations (searchsorted, argsort, cumsum, digitize,
linspace, trapz, fancy indexing) are embedded by their documented semantics
on such lists.  Fallible steps are embedded with Option/Except.
-/

/-- np.searchsorted(a, v, side='left') on a sorted lookup table: the
insertion index, i.e. the first index i with v ≤ a[i], or a.length when
there is none. -/
def searchsorted (a : List ℚ) (v : ℚ) : Nat :=
  match a with
  | [] => 0
  | x :: xs => if v ≤ x then 0 else searchsorted xs v + 1

/-- The comparison np.argsort sorts indices by: ascending key value, ties
broken by the original index (a deterministic stable tie-break, numpy's
kind='stable'; the default sort's tie order is unspecified, so the
canonical determinization by original index is used).  On indices with
distinct keys — every use below whose output the claims fix — any correct
sort produces the same output. -/
def argRel {α : Type} [LinearOrder α] (key : Nat → α) (i j : Nat) : Prop :=
  key i < key j ∨ (key i = key j ∧ i ≤ j)

instance argRel_decidable {α : Type} [LinearOrder α] (key : Nat → α) :
    DecidableRel (argRel key) := fun i j => by
  unfold argRel; infer_instance

/-- np.argsort of the key table key 0, ..., key (n-1): the indices 0..n-1
reordered so that the key values come out ascending. -/
def argsortKey {α : Type} [LinearOrder α] (key : Nat → α) (n : Nat) : List Nat :=
  List.insertionSort (argRel key) (List.range n)

/-- np.argsort of an array. -/
def argsort {α : Type} [LinearOrder α] [Inhabited α] (xs : List α) : List Nat :=
  argsortKey (fun i => xs.getD i default) xs.length

/-- What np.argsort with the source's default kind actually guarantees
(its documented contract, and all the source relies on): the output is a
permutation of the indices 0..n-1 along which the key values are
non-decreasing.  The order of indices with tied keys is NOT specified —
the default sort is not stable — so any list satisfying this predicate is
a possible output of the program's sort. -/
def isArgsortOf (xs : List ℚ) (o : List Nat) : Prop :=
  o.Perm (List.range xs.length) ∧
    List.Pairwise (fun i j => xs.getD i 0 ≤ xs.getD j 0) o

/-- np.cumsum: running sums. -/
def cumsum : List ℚ → List ℚ
  | [] => []
  | x :: xs => x :: (cumsum xs).map (fun y => x + y)

/-- numpy fancy indexing xs[order]: gather the entries of xs at the
positions listed in order. -/
def gather {β : Type} (d : β) (xs : List β) (order : List Nat) : List β :=
  order.map (fun i => xs.getD i d)

/-- Column b of a row-major 2-D array (m[:, b]). -/
def column (m : List (List ℚ)) (b : Nat) : List ℚ :=
  m.map (fun row => row.getD b 0)

/-- setup, cumulative-weight table (weight_sum = np.sum(weights);
weights = weights[order]; np.cumsum(weights) / weight_sum). -/
def weight_cumsum (weights : List ℚ) (order : List Nat) : List ℚ :=
  (cumsum (gather 0 weights order)).map (fun x => x / weights.sum)

/-- setup, weight validation: np.array_equal(np.array([0]), np.unique(weights))
holds exactly when the weight list is nonempty and every entry is zero. -/
def allWeightsZero (weights : List ℚ) : Bool :=
  !weights.isEmpty && weights.all (fun w => w == 0)

/-- setup, weight validation: raising RuntimeError when every realisation
weight is zero is embedded as an Except value. -/
def setupWeightCheck (weights : List ℚ) : Except String Unit :=
  if allWeightsZero weights then
    Except.error "All realisations have zero weight"
  else
    Except.ok ()

/-- The in-place clamp nz_new[nz_new < 0] = 0 applied to one entry. -/
def clampNeg (x : ℚ) : ℚ := if x < 0 then 0 else x

/-- ensure_starts_at_zero(z, nz): if z[0] > 1e-8, a fresh grid with a zero
point prepended and fresh density rows with a zero prepended are built and
the negative entries of the fresh rows are clamped to zero; otherwise the
arrays are (aliased and) returned with negative entries clamped to zero. -/
def ensure_starts_at_zero (z : List ℚ) (nz : List (List ℚ)) :
    List ℚ × List (List ℚ) :=
  if 1 / 100000000 < z.getD 0 0 then
    ((0 : ℚ) :: z, nz.map (fun row => ((0 : ℚ) :: row).map clampNeg))
  else
    (z, nz.map (fun row => row.map clampNeg))

/-- The value held by the array passed as the nz argument after
ensure_starts_at_zero returns: in the prepend branch a fresh array is
written (nz_new = np.zeros(...)) and the argument is untouched; in the
other branch nz_new aliases nz, so the clamp nz_new[nz_new < 0] = 0 writes
through the argument. -/
def ensure_starts_at_zero_argAfter (z : List ℚ) (nz : List (List ℚ)) :
    List (List ℚ) :=
  if 1 / 100000000 < z.getD 0 0 then nz
  else nz.map (fun row => row.map clampNeg)

/-- np.digitize(x, bins) for monotonically increasing bins (right=False):
the number of bin edges ≤ x, i.e. the i with bins[i-1] ≤ x < bins[i]. -/
def digitize (x : ℚ) (bins : List ℚ) : Nat :=
  (bins.filter (fun e => decide (e ≤ x))).length

/-- np.linspace(a, b, num): num evenly spaced points from a to b,
endpoints included. -/
def linspace (a b : ℚ) (num : Nat) : List ℚ :=
  (List.range num).map (fun j : Nat => a + (b - a) * (j : ℚ) / ((num : ℚ) - 1))

/-- load_histogram_form, upsampling > 1 path: the fine grid
z = np.linspace(0.0, zhigh[-1], len(zlow) * upsampling). -/
def upsample_grid (zlow : List ℚ) (zhighLast : ℚ) (upsampling : Nat) : List ℚ :=
  linspace 0 zhighLast (zlow.length * upsampling)

/-- load_histogram_form, upsampling > 1 path: the upsampled densities
nz = data[sample_bin] with sample_bin = np.digitize(z, zlow) - 1. -/
def upsample_nz (zlow : List ℚ) (zhighLast : ℚ) (native : List ℚ)
    (upsampling : Nat) : List ℚ :=
  (upsample_grid zlow zhighLast upsampling).map
    (fun x => native.getD (digitize x zlow - 1) 0)

/-- One extension of the input file, as the already-parsed arrays the code
reads from it: the Z_LOW / Z_HIGH / Z_MID columns and the BIN1..BINB
density columns (bins.getD (b-1) is column BINb). -/
structure FitsExt where
  zlow : List ℚ
  zhigh : List ℚ
  zmid : List ℚ
  bins : List (List ℚ)

/-- load_histogram_form(ext, bin, upsampling): the histogram grid and
densities (native for upsampling = 1, upsampled otherwise), the
pre-normalization sum captured as the calibration bias norm - 1, and the
densities divided by their sum. -/
def load_histogram_form (ext : FitsExt) (bin : Nat) (upsampling : Nat) :
    List ℚ × List ℚ × ℚ :=
  let zn :=
    if upsampling = 1 then
      (ext.zmid, ext.bins.getD (bin - 1) [])
    else
      (upsample_grid ext.zlow (ext.zhigh.getLastD 0) upsampling,
       upsample_nz ext.zlow (ext.zhigh.getLastD 0) (ext.bins.getD (bin - 1) [])
         upsampling)
  let norm := zn.2.sum
  (zn.1, zn.2.map (fun y => y / norm), norm - 1)

/-- setup, statistic extraction (one realisation, one tomographic bin):
nz_mean = np.trapz(nz * zmid, zmid), the trapezoid rule applied to the
pointwise product of the normalized densities and the grid. -/
def trapz : List ℚ → List ℚ → ℚ
  | y0 :: y1 :: ys, x0 :: x1 :: xs =>
      (y0 + y1) / 2 * (x1 - x0) + trapz (y1 :: ys) (x1 :: xs)
  | _, _ => 0

/-- setup line computing the mean-redshift ranking statistic of one
realisation in one bin: np.trapz(nz * zmid, zmid). -/
def nz_mean_stat (zmid nz : List ℚ) : ℚ :=
  trapz (List.zipWith (fun d z => d * z) nz zmid) zmid

/-- Modelled from the spec for comparison with nz_mean_stat: the statistic
the spec describes, the plain sum Σ density(z) · z over the grid. -/
def spec_sum_moment (zmid nz : List ℚ) : ℚ :=
  (List.zipWith (fun d z => d * z) nz zmid).sum

/-- The seven supported ranking mode strings. -/
def modes : List String :=
  ["unified", "separate", "inv-chi-unified", "inv-chi-separate",
   "random", "external", "no-rank"]

/-- The modes handled by execute's single-hyperparameter branch. -/
def groupedModes : List String :=
  ["no-rank", "unified", "random", "external", "inv-chi-unified"]

/-- unified (and inv-chi-unified) ordering: average the per-bin statistic
across bins for each realisation (mean(axis=1)) and argsort ascending. -/
def order_unified (stat : List (List ℚ)) : List Nat :=
  argsort (stat.map (fun row => row.sum / (row.length : ℚ)))

/-- separate (and inv-chi-separate) ordering for one tomographic bin:
argsort of that bin's column of the statistic table. -/
def order_separate (stat : List (List ℚ)) (b : Nat) : List Nat :=
  argsort (column stat b)

/-- external ordering: argsort of the externally supplied scalar array. -/
def order_external (ext : List ℚ) : List Nat :=
  argsort ext

/-- One in-place Fisher-Yates step of np.random.shuffle: swap a[i], a[j]. -/
def shuffleStep (a : List Nat) (i j : Nat) : List Nat :=
  (a.set i (a.getD j 0)).set j (a.getD i 0)

/-- np.random.shuffle tail: steps at indices i, i-1, ..., 1, each swapping
position i with position draw i. -/
def shuffleFrom (draw : Nat → Nat) : List Nat → Nat → List Nat
  | a, 0 => a
  | a, i + 1 => shuffleFrom draw (shuffleStep a (i + 1) (draw (i + 1))) i

/-- random ordering: np.random.shuffle(np.arange(n)) after np.random.seed(n).
The pseudo-random draws are abstracted as a stream draw with draw i ≤ i
(numpy draws j uniformly in [0, i]); the source seeds the stream by n. -/
def order_random (n : Nat) (draw : Nat → Nat) : List Nat :=
  shuffleFrom draw (List.range n) (n - 1)

/-- rank = np.argsort(order): the inverse permutation of the ordering. -/
def rank_of (order : List Nat) : List Nat :=
  argsort order

/-- setup, ordering step: the permutation each mode produces.  The
per-realisation statistic tables, the external scalar array and the
pseudo-random draw stream are parameters; b is the tomographic bin for the
per-bin (separate) modes. -/
def setup_order (mode : String) (n : Nat) (nz_mean : List (List ℚ))
    (inv_chi_mean : List (List ℚ)) (external : List ℚ) (draw : Nat → Nat)
    (b : Nat) : List Nat :=
  if mode = "no-rank" then List.range n
  else if mode = "unified" then order_unified nz_mean
  else if mode = "separate" then order_separate nz_mean b
  else if mode = "external" then order_external external
  else if mode = "random" then order_random n draw
  else if mode = "inv-chi-unified" then order_unified inv_chi_mean
  else if mode = "inv-chi-separate" then order_separate inv_chi_mean b
  else []

/-- setup, building config['ranked_cal']: ranked_cal = multiplicative_bias[order]
is assigned only inside the mode == 'unified' branch, but the config build
reads ranked_cal unconditionally; for every other mode that read raises
NameError, embedded as none. -/
def setup_ranked_cal (mode : String) (multiplicative_bias : List (List ℚ))
    (order : List Nat) : Option (List (List ℚ)) :=
  if mode = "unified" then some (gather [] multiplicative_bias order)
  else none

/-- The fields of the config dictionary that execute's grouped branch
reads: the ranked histograms [realisation][bin][point], the ranked
calibration biases [realisation][bin], the cumulative-weight table and the
shared grid. -/
structure ConfigG where
  ranked_nz : List (List (List ℚ))
  ranked_cal : List (List ℚ)
  weights : List ℚ
  zmid : List ℚ
  n_bins : Nat

/-- The fields of the config dictionary that execute's separate branch
reads; the cumulative-weight table is per-bin (an [N][B] table). -/
structure ConfigS where
  ranked_nz : List (List (List ℚ))
  weights : List (List ℚ)
  zmid : List ℚ
  n_bins : Nat

/-- What execute's grouped branch writes to the datablock: z, nz = len(z),
bin_1..bin_nbin, m1..m_nbin, nbin, and the return value 0. -/
structure GroupedOut where
  z : List ℚ
  nzlen : Nat
  bins : List (List ℚ)
  mbias : List ℚ
  nbin : Nat
  ret : Int

/-- execute, grouped branch (modes no-rank, unified, random, external,
inv-chi-unified): sample = np.searchsorted(weights, rank_hyperparm_1);
mbias = ranked_cal[sample]; per-bin writes of mbias and of the
zero-floored rows of ranked_nz[sample].  The second component is the
config state after the call: ensure_starts_at_zero is applied to the view
ranked_nz[sample], so its in-place clamp writes through to the stored
array. -/
def executeGrouped (cfg : ConfigG) (h : ℚ) : GroupedOut × ConfigG :=
  let sample := searchsorted cfg.weights h
  let mbias := cfg.ranked_cal.getD sample []
  let zn := ensure_starts_at_zero cfg.zmid (cfg.ranked_nz.getD sample [])
  ({ z := zn.1
     nzlen := zn.1.length
     bins := (List.range cfg.n_bins).map (fun b => zn.2.getD b [])
     mbias := (List.range cfg.n_bins).map (fun b => mbias.getD b 0)
     nbin := cfg.n_bins
     ret := 0 },
   { cfg with
     ranked_nz := cfg.ranked_nz.set sample
       (ensure_starts_at_zero_argAfter cfg.zmid (cfg.ranked_nz.getD sample [])) })

/-- What execute's separate branch writes to the datablock (no calibration
biases are written on this path). -/
structure SeparateOut where
  z : List ℚ
  nzlen : Nat
  bins : List (List ℚ)
  nbin : Nat
  ret : Int

/-- execute, separate branch (modes separate, inv-chi-separate): one
hyperparameter per tomographic bin, each looked up in its own
cumulative-weight column; the selected rows are copied into a fresh
nz_sampled array (np.empty) before ensure_starts_at_zero, so the stored
ensemble is not written through and the config state is returned
unchanged. -/
def executeSeparate (cfg : ConfigS) (hs : Nat → ℚ) : SeparateOut × ConfigS :=
  let nz_sampled := (List.range cfg.n_bins).map (fun b =>
    let sample := searchsorted (column cfg.weights b) (hs b)
    (cfg.ranked_nz.getD sample []).getD b [])
  let zn := ensure_starts_at_zero cfg.zmid nz_sampled
  ({ z := zn.1
     nzlen := zn.1.length
     bins := (List.range cfg.n_bins).map (fun b => zn.2.getD b [])
     nbin := cfg.n_bins
     ret := 0 },
   cfg)

/-- execute's mode dispatch for the grouped branch: the if mode in
[no-rank, unified, random, external, inv-chi-unified] guard. -/
def executeDispatchGrouped (mode : String) (cfg : ConfigG) (h : ℚ) :
    Option (GroupedOut × ConfigG) :=
  if mode ∈ groupedModes then some (executeGrouped cfg h) else none

/-- rename_section setup: the (source, dest) pair read from the options. -/
def rename_setup (source dest : String) : String × String :=
  (source, dest)

/-- The cosmosis datablock helper block._copy_section(source, dest),
modelled on a key-value store mapping section names to section contents:
dest becomes a copy of the contents of source. -/
def copy_section {V : Type} (b : String → Option V) (source dest : String) :
    String → Option V :=
  fun s => if s = dest then b source else b s

/-- The cosmosis datablock helper block._delete_section(source): the
section named source is removed. -/
def delete_section {V : Type} (b : String → Option V) (source : String) :
    String → Option V :=
  fun s => if s = source then none else b s

/-- rename_section execute: copy the source section to dest, delete the
source section, return 0. -/
def rename_execute {V : Type} (config : String × String)
    (b : String → Option V) : (String → Option V) × Int :=
  (delete_section (copy_section b config.1 config.2) config.1, 0)

/-! ### Helper lemmas: lists, gather, cumsum -/

theorem getD_range_map {β : Type} (l : List β) (d : β) :
    (List.range l.length).map (fun i => l.getD i d) = l := by
  induction l with
  | nil => simp
  | cons x xs ih =>
      rw [List.length_cons, List.range_succ_eq_map, List.map_cons, List.map_map]
      have h : ((fun i => (x :: xs).getD i d) ∘ Nat.succ) = fun i => xs.getD i d := by
        funext i; simp [List.getD_cons_succ]
      rw [List.getD_cons_zero, h, ih]

theorem gather_perm {β : Type} (d : β) (xs : List β) (order : List Nat)
    (h : order.Perm (List.range xs.length)) : (gather d xs order).Perm xs := by
  have h2 := h.map (fun i => xs.getD i d)
  rw [getD_range_map] at h2
  exact h2

theorem gather_length {β : Type} (d : β) (xs : List β) (order : List Nat) :
    (gather d xs order).length = order.length := by
  simp [gather]

theorem cumsum_length (xs : List ℚ) : (cumsum xs).length = xs.length := by
  induction xs with
  | nil => rfl
  | cons x xs ih => simp [cumsum, ih]

theorem cumsum_getD (xs : List ℚ) (k : Nat) (hk : k < xs.length) :
    (cumsum xs).getD k 0 = (xs.take (k + 1)).sum := by
  induction xs generalizing k with
  | nil => simp at hk
  | cons x xs ih =>
      cases k with
      | zero => simp [cumsum]
      | succ k =>
          have hk' : k < xs.length := by simpa using hk
          have hlen : k < (cumsum xs).length := by rw [cumsum_length]; exact hk'
          rw [cumsum, List.getD_cons_succ,
            List.getD_eq_getElem _ _ (by simpa using hlen), List.getElem_map,
            ← List.getD_eq_getElem _ 0 hlen, ih k hk', List.take_succ_cons,
            List.sum_cons]

theorem sum_take_le_sum (xs : List ℚ) (h : ∀ w ∈ xs, 0 ≤ w) (m : Nat) :
    (xs.take m).sum ≤ xs.sum := by
  conv_rhs => rw [← List.take_append_drop m xs]
  rw [List.sum_append]
  have hd : 0 ≤ (xs.drop m).sum :=
    List.sum_nonneg (fun a ha => h a (List.mem_of_mem_drop ha))
  linarith

theorem sum_take_nonneg (xs : List ℚ) (h : ∀ w ∈ xs, 0 ≤ w) (m : Nat) :
    0 ≤ (xs.take m).sum :=
  List.sum_nonneg (fun a ha => h a (List.mem_of_mem_take ha))

theorem cumsum_chain' (xs : List ℚ) (h : ∀ w ∈ xs, 0 ≤ w) :
    List.Chain' (· ≤ ·) (cumsum xs) := by
  rw [List.chain'_iff_get]
  intro i hi
  have hlen := cumsum_length xs
  have hi1 : i + 1 < xs.length := by omega
  have hi0 : i < xs.length := by omega
  rw [List.get_eq_getElem, List.get_eq_getElem,
    ← List.getD_eq_getElem _ 0 (by omega), ← List.getD_eq_getElem _ 0 (by omega),
    cumsum_getD xs i hi0, cumsum_getD xs (i + 1) hi1,
    List.sum_take_succ xs (i + 1) hi1]
  have := h (xs[i + 1]) (List.getElem_mem hi1)
  linarith

theorem cumsum_last (xs : List ℚ) (hne : xs ≠ []) :
    (cumsum xs).getD (xs.length - 1) 0 = xs.sum := by
  have hpos : 0 < xs.length := List.length_pos.mpr hne
  rw [cumsum_getD xs _ (by omega)]
  have h1 : xs.length - 1 + 1 = xs.length := by omega
  rw [h1, List.take_length]

/-! ### Helper lemmas: searchsorted -/

theorem searchsorted_le_length (a : List ℚ) (v : ℚ) :
    searchsorted a v ≤ a.length := by
  induction a with
  | nil => simp [searchsorted]
  | cons x xs ih =>
      by_cases h : v ≤ x
      · simp [searchsorted, h]
      · rw [searchsorted, if_neg h, List.length_cons]; omega

theorem searchsorted_before (a : List ℚ) (v : ℚ) (j : Nat)
    (hj : j < searchsorted a v) : a.getD j 0 < v := by
  induction a generalizing j with
  | nil => simp [searchsorted] at hj
  | cons x xs ih =>
      by_cases h : v ≤ x
      · rw [searchsorted, if_pos h] at hj; omega
      · rw [searchsorted, if_neg h] at hj
        cases j with
        | zero => rw [List.getD_cons_zero]; exact lt_of_not_le h
        | succ j => rw [List.getD_cons_succ]; exact ih j (by omega)

theorem searchsorted_at (a : List ℚ) (v : ℚ)
    (hlt : searchsorted a v < a.length) :
    v ≤ a.getD (searchsorted a v) 0 := by
  induction a with
  | nil => simp at hlt
  | cons x xs ih =>
      by_cases h : v ≤ x
      · rw [searchsorted, if_pos h, List.getD_cons_zero]; exact h
      · rw [searchsorted, if_neg h] at hlt ⊢
        rw [List.getD_cons_succ]
        exact ih (by simpa using hlt)

/-! ### Helper lemmas: argsort -/

theorem argRel_total {α : Type} [LinearOrder α] (key : Nat → α) :
    ∀ i j, argRel key i j ∨ argRel key j i := by
  intro i j
  rcases lt_trichotomy (key i) (key j) with h | h | h
  · exact Or.inl (Or.inl h)
  · rcases le_total i j with hij | hij
    · exact Or.inl (Or.inr ⟨h, hij⟩)
    · exact Or.inr (Or.inr ⟨h.symm, hij⟩)
  · exact Or.inr (Or.inl h)

theorem argRel_trans {α : Type} [LinearOrder α] (key : Nat → α) :
    ∀ i j k, argRel key i j → argRel key j k → argRel key i k := by
  intro i j k hij hjk
  rcases hij with h1 | ⟨h1, h1le⟩ <;> rcases hjk with h2 | ⟨h2, h2le⟩
  · exact Or.inl (h1.trans h2)
  · exact Or.inl (h2 ▸ h1)
  · exact Or.inl (h1 ▸ h2)
  · exact Or.inr ⟨h1.trans h2, h1le.trans h2le⟩

theorem argsortKey_perm {α : Type} [LinearOrder α] (key : Nat → α) (n : Nat) :
    (argsortKey key n).Perm (List.range n) :=
  List.perm_insertionSort _ _

theorem argsortKey_length {α : Type} [LinearOrder α] (key : Nat → α) (n : Nat) :
    (argsortKey key n).length = n :=
  (argsortKey_perm key n).length_eq.trans (List.length_range n)

theorem argsortKey_sorted {α : Type} [LinearOrder α] (key : Nat → α) (n : Nat) :
    List.Sorted (argRel key) (argsortKey key n) := by
  haveI : IsTotal Nat (argRel key) := ⟨argRel_total key⟩
  haveI : IsTrans Nat (argRel key) := ⟨argRel_trans key⟩
  exact List.sorted_insertionSort _ _

theorem argsortKey_pairwise_le {α : Type} [LinearOrder α] (key : Nat → α)
    (n : Nat) :
    List.Pairwise (fun i j => key i ≤ key j) (argsortKey key n) :=
  (argsortKey_sorted key n).imp (fun h => by
    rcases h with h | ⟨h, _⟩
    · exact le_of_lt h
    · exact le_of_eq h)

theorem argsortKey_pairwise_stable {α : Type} [LinearOrder α] (key : Nat → α)
    (n : Nat) :
    List.Pairwise (fun i j => key i = key j → i ≤ j) (argsortKey key n) :=
  (argsortKey_sorted key n).imp (fun h heq => by
    rcases h with h | ⟨_, hle⟩
    · exact absurd heq (ne_of_lt h)
    · exact hle)

theorem argsortKey_mem_lt {α : Type} [LinearOrder α] (key : Nat → α) (n : Nat)
    (i : Nat) (h : i ∈ argsortKey key n) : i < n :=
  List.mem_range.mp ((argsortKey_perm key n).mem_iff.mp h)

theorem argsort_perm {α : Type} [LinearOrder α] [Inhabited α] (xs : List α) :
    (argsort xs).Perm (List.range xs.length) :=
  argsortKey_perm _ _

theorem argsort_length {α : Type} [LinearOrder α] [Inhabited α] (xs : List α) :
    (argsort xs).length = xs.length :=
  argsortKey_length _ _

/-- np.argsort of a permutation of 0..n-1 is its inverse permutation:
o[argsort(o)[i]] = i for i < n.  Step one of the rank = argsort(order)
relation. -/
theorem argsort_perm_apply (o : List Nat) (ho : o.Perm (List.range o.length))
    (i : Nat) (hi : i < o.length) : o.getD ((rank_of o).getD i 0) 0 = i := by
  set n := o.length with hn
  set key : Nat → Nat := fun m => o.getD m 0 with hkey
  have hkd : (fun m => o.getD m (default : Nat)) = key := rfl
  have hr : rank_of o = argsortKey key n := by
    rw [rank_of, argsort, hkd]
  have hperm : (rank_of o).Perm (List.range n) := by rw [hr]; exact argsortKey_perm key n
  have hrlen : (rank_of o).length = n := by rw [hr]; exact argsortKey_length key n
  have honodup : o.Nodup := ho.nodup_iff.mpr (List.nodup_range n)
  have hinj : ∀ a b : Nat, a < n → b < n → key a = key b → a = b := by
    intro a b ha hb hab
    have h1 : key a = o[a] := List.getD_eq_getElem o 0 ha
    have h2 : key b = o[b] := List.getD_eq_getElem o 0 hb
    exact (honodup.getElem_inj_iff).mp (by rw [← h1, ← h2, hab])
  have hmap_eq : ((rank_of o).map key) = List.range n := by
    have hsorted : List.Pairwise (argRel key) (rank_of o) := by
      rw [hr]; exact argsortKey_sorted key n
    have hnodup : (rank_of o).Nodup := hperm.nodup_iff.mpr (List.nodup_range n)
    have hstrict : List.Pairwise (fun a b => key a < key b) (rank_of o) := by
      refine (hsorted.and hnodup).imp_of_mem ?_
      intro a b ha hb hab
      have han : a < n := List.mem_range.mp (hperm.mem_iff.mp ha)
      have hbn : b < n := List.mem_range.mp (hperm.mem_iff.mp hb)
      rcases hab.1 with h | ⟨heq, _⟩
      · exact h
      · exact absurd (hinj a b han hbn heq) hab.2
    have hmapperm : ((rank_of o).map key).Perm (List.range n) := by
      have h1 := hperm.map key
      have h2 : (List.range n).map key = o := getD_range_map o 0
      rw [h2] at h1
      exact h1.trans ho
    haveI : IsAntisymm Nat (· < ·) :=
      ⟨fun a b h h2 => absurd h2 (Nat.lt_asymm h)⟩
    exact List.eq_of_perm_of_sorted hmapperm
      (List.pairwise_map.mpr hstrict) (List.pairwise_lt_range n)
  have hri : (rank_of o).getD i 0 < n := by
    have hmem : (rank_of o).getD i 0 ∈ rank_of o := by
      rw [List.getD_eq_getElem _ 0 (by omega : i < (rank_of o).length)]
      exact List.getElem_mem _
    exact List.mem_range.mp (hperm.mem_iff.mp hmem)
  have hmaplen : i < (List.map key (rank_of o)).length := by
    rw [List.length_map]; omega
  have hthis : (List.map key (rank_of o)).getD i 0 = (List.range n).getD i 0 := by
    rw [hmap_eq]
  rw [List.getD_eq_getElem (List.map key (rank_of o)) 0 hmaplen, List.getElem_map,
    List.getD_eq_getElem (List.range n) 0 (by rw [List.length_range]; omega),
    List.getElem_range] at hthis
  rw [← List.getD_eq_getElem (rank_of o) 0 (by omega : i < (rank_of o).length)]
    at hthis
  exact hthis

/-- rank[order[k]] = k: np.argsort of a permutation is a two-sided inverse. -/
theorem argsort_inverse (o : List Nat) (ho : o.Perm (List.range o.length))
    (k : Nat) (hk : k < o.length) : (rank_of o).getD (o.getD k 0) 0 = k := by
  set n := o.length with hn
  have honodup : o.Nodup := ho.nodup_iff.mpr (List.nodup_range n)
  have hok : o.getD k 0 < n := by
    have hmem : o.getD k 0 ∈ o := by
      rw [List.getD_eq_getElem o 0 hk]; exact List.getElem_mem hk
    exact List.mem_range.mp (ho.mem_iff.mp hmem)
  have happ := argsort_perm_apply o ho (o.getD k 0) hok
  have hperm : (rank_of o).Perm (List.range n) := by
    rw [rank_of]
    have := argsort_perm o
    exact this
  have hrk : (rank_of o).getD (o.getD k 0) 0 < n := by
    have hmem : (rank_of o).getD (o.getD k 0) 0 ∈ rank_of o := by
      have hlen : (rank_of o).length = n := by rw [rank_of]; exact argsort_length o
      rw [List.getD_eq_getElem _ 0 (by omega : o.getD k 0 < (rank_of o).length)]
      exact List.getElem_mem _
    exact List.mem_range.mp (hperm.mem_iff.mp hmem)
  have h1 : (rank_of o).getD (o.getD k 0) 0 < o.length := hrk
  have h2 : o.getD k 0 = o[k] := List.getD_eq_getElem o 0 hk
  have h3 : o.getD ((rank_of o).getD (o.getD k 0) 0) 0
      = o[(rank_of o).getD (o.getD k 0) 0] := List.getD_eq_getElem o 0 h1
  have h4 : o[(rank_of o).getD (o.getD k 0) 0] = o[k] := by
    rw [← h3, happ, h2]
  exact honodup.getElem_inj_iff.mp h4

/-- On distinct key values the np.argsort contract pins the output down
uniquely: any two index lists that both sort the keys non-decreasingly
and are permutations of 0..n-1 coincide, whatever tie rule the underlying
sort would have used. -/
theorem isArgsortOf_unique (xs : List ℚ) (hnd : xs.Nodup) (o o' : List Nat)
    (ho : isArgsortOf xs o) (ho' : isArgsortOf xs o') : o = o' := by
  obtain ⟨hop, hos⟩ := ho
  obtain ⟨hop', hos'⟩ := ho'
  set n := xs.length with hn
  set key : Nat → ℚ := fun m => xs.getD m 0 with hkey
  have hinj : ∀ a b : Nat, a < n → b < n → key a = key b → a = b := by
    intro a b ha hb hab
    have h1 : key a = xs[a] := List.getD_eq_getElem xs 0 ha
    have h2 : key b = xs[b] := List.getD_eq_getElem xs 0 hb
    exact hnd.getElem_inj_iff.mp (by rw [← h1, ← h2, hab])
  have hstrict : ∀ p : List Nat, p.Perm (List.range n) →
      List.Pairwise (fun i j => key i ≤ key j) p →
      List.Pairwise (fun i j => key i < key j) p := by
    intro p hp hps
    have hpnd : p.Nodup := hp.nodup_iff.mpr (List.nodup_range n)
    refine (hps.and hpnd).imp_of_mem ?_
    intro a b ha hb hab
    have han : a < n := List.mem_range.mp (hp.mem_iff.mp ha)
    have hbn : b < n := List.mem_range.mp (hp.mem_iff.mp hb)
    rcases lt_or_eq_of_le hab.1 with h | h
    · exact h
    · exact absurd (hinj a b han hbn h) hab.2
  have hperm_xs : ∀ p : List Nat, p.Perm (List.range n) →
      (p.map key).Perm xs := by
    intro p hp
    have h1 := hp.map key
    have h2 : (List.range n).map key = xs := getD_range_map xs 0
    rw [h2] at h1
    exact h1
  have heq : o.map key = o'.map key := by
    haveI : IsAntisymm ℚ (· < ·) := ⟨fun a b h h2 => absurd h2 (lt_asymm h)⟩
    exact List.eq_of_perm_of_sorted
      ((hperm_xs o hop).trans (hperm_xs o' hop').symm)
      (List.pairwise_map.mpr (hstrict o hop hos))
      (List.pairwise_map.mpr (hstrict o' hop' hos'))
  have hlen : o.length = n := hop.length_eq.trans (List.length_range n)
  have hlen' : o'.length = n := hop'.length_eq.trans (List.length_range n)
  refine List.ext_getElem (by omega) ?_
  intro i h1 h2
  have h3 : i < (o.map key).length := by rw [List.length_map]; omega
  have h4 : i < (o'.map key).length := by rw [List.length_map]; omega
  have h5 : (o.map key)[i] = (o'.map key)[i] := List.getElem_of_eq heq h3
  rw [List.getElem_map, List.getElem_map] at h5
  have hon : o[i] < n :=
    List.mem_range.mp (hop.mem_iff.mp (List.getElem_mem h1))
  have hon' : o'[i] < n :=
    List.mem_range.mp (hop'.mem_iff.mp (List.getElem_mem h2))
  exact hinj _ _ hon hon' h5

/-! ### Helper lemmas: Fisher-Yates shuffle -/

theorem cons_set_perm (t : List Nat) (k : Nat) (hk : k < t.length) (x : Nat) :
    (t.getD k 0 :: t.set k x).Perm (x :: t) := by
  induction t generalizing k with
  | nil => simp at hk
  | cons y s ih =>
      cases k with
      | zero =>
          simp only [List.getD_cons_zero, List.set_cons_zero]
          exact List.Perm.swap x y s
      | succ k =>
          have hk' : k < s.length := by simpa using hk
          simp only [List.getD_cons_succ, List.set_cons_succ]
          have p1 : (s.getD k 0 :: y :: s.set k x).Perm
              (y :: s.getD k 0 :: s.set k x) :=
            List.Perm.swap y (s.getD k 0) (s.set k x)
          have p2 : (y :: s.getD k 0 :: s.set k x).Perm (y :: x :: s) :=
            (ih k hk').cons y
          have p3 : (y :: x :: s).Perm (x :: y :: s) := List.Perm.swap x y s
          exact (p1.trans p2).trans p3

theorem shuffleStep_perm (a : List Nat) (i j : Nat) (hi : i < a.length)
    (hj : j < a.length) : (shuffleStep a i j).Perm a := by
  induction a generalizing i j with
  | nil => simp at hi
  | cons y s ih =>
      cases i with
      | zero =>
          cases j with
          | zero => simp [shuffleStep]
          | succ m =>
              have hm : m < s.length := by simpa using hj
              simp only [shuffleStep, List.getD_cons_succ, List.getD_cons_zero,
                List.set_cons_zero, List.set_cons_succ]
              exact cons_set_perm s m hm y
      | succ l =>
          cases j with
          | zero =>
              have hl : l < s.length := by simpa using hi
              simp only [shuffleStep, List.getD_cons_succ, List.getD_cons_zero,
                List.set_cons_zero, List.set_cons_succ]
              exact cons_set_perm s l hl y
          | succ m =>
              have hl : l < s.length := by simpa using hi
              have hm : m < s.length := by simpa using hj
              simp only [shuffleStep, List.getD_cons_succ, List.set_cons_succ]
              exact (ih l m hl hm).cons y

theorem shuffleStep_length (a : List Nat) (i j : Nat) :
    (shuffleStep a i j).length = a.length := by
  simp [shuffleStep]

theorem shuffleFrom_perm (draw : Nat → Nat) (hdraw : ∀ m, draw m ≤ m) :
    ∀ (i : Nat) (a : List Nat), i < a.length → (shuffleFrom draw a i).Perm a := by
  intro i
  induction i with
  | zero => intro a _; exact List.Perm.refl a
  | succ i ih =>
      intro a ha
      rw [shuffleFrom]
      have h2 : draw (i + 1) < a.length := lt_of_le_of_lt (hdraw (i + 1)) ha
      have hstep := shuffleStep_perm a (i + 1) (draw (i + 1)) ha h2
      have hlen := shuffleStep_length a (i + 1) (draw (i + 1))
      exact (ih _ (by omega)).trans hstep

theorem order_random_perm (n : Nat) (draw : Nat → Nat)
    (hdraw : ∀ m, draw m ≤ m) : (order_random n draw).Perm (List.range n) := by
  cases n with
  | zero => simp [order_random, shuffleFrom]
  | succ n =>
      rw [order_random]
      have h1 : n + 1 - 1 = n := rfl
      rw [h1]
      exact shuffleFrom_perm draw hdraw n (List.range (n + 1))
        (by rw [List.length_range]; omega)

/-! ### Helper lemmas: digitize and trapz -/

theorem digitize_le_length (x : ℚ) (bins : List ℚ) :
    digitize x bins ≤ bins.length := by
  rw [digitize]
  exact List.length_filter_le _ _

theorem digitize_mono_spec (x : ℚ) (bins : List ℚ)
    (hsorted : List.Pairwise (· ≤ ·) bins) :
    (∀ j < digitize x bins, bins.getD j 0 ≤ x) ∧
      (digitize x bins < bins.length → x < bins.getD (digitize x bins) 0) := by
  induction bins with
  | nil => simp [digitize]
  | cons e rest ih =>
      have hrest : List.Pairwise (· ≤ ·) rest := hsorted.tail
      by_cases h : e ≤ x
      · have hd : digitize x (e :: rest) = digitize x rest + 1 := by
          simp [digitize, List.filter_cons, h]
        rcases ih hrest with ⟨ih1, ih2⟩
        constructor
        · intro j hj
          cases j with
          | zero => simpa using h
          | succ j =>
              rw [List.getD_cons_succ]
              exact ih1 j (by omega)
        · intro hlt
          rw [hd, List.getD_cons_succ]
          exact ih2 (by simpa [hd] using hlt)
      · have hall : ∀ a ∈ rest, ¬(a ≤ x) := by
          intro a ha hax
          exact h (le_trans (List.rel_of_pairwise_cons hsorted ha) hax)
        have hd : digitize x (e :: rest) = 0 := by
          have h1 : List.filter (fun a => decide (a ≤ x)) rest = [] :=
            List.filter_eq_nil_iff.mpr (by
              intro a ha
              simpa using hall a ha)
          simp [digitize, List.filter_cons, h, h1]
        constructor
        · intro j hj; omega
        · intro _
          rw [hd, List.getD_cons_zero]
          exact lt_of_not_le h

theorem digitize_pos (x : ℚ) (bins : List ℚ) (h0 : bins ≠ [])
    (hx : bins.getD 0 0 ≤ x) : 0 < digitize x bins := by
  cases bins with
  | nil => simp at h0
  | cons e rest =>
      rw [List.getD_cons_zero] at hx
      simp [digitize, List.filter_cons, hx]

theorem trapz_eq_sum (y x : List ℚ) (hlen : y.length = x.length) :
    trapz y x = ∑ j ∈ Finset.range (x.length - 1),
      (y.getD j 0 + y.getD (j + 1) 0) / 2 * (x.getD (j + 1) 0 - x.getD j 0) := by
  induction y generalizing x with
  | nil =>
      cases x with
      | nil => simp [trapz]
      | cons a as => simp at hlen
  | cons y0 ys ih =>
      cases x with
      | nil => simp at hlen
      | cons x0 xs =>
          cases ys with
          | nil =>
              cases xs with
              | nil => simp [trapz]
              | cons b bs => simp at hlen
          | cons y1 ys' =>
              cases xs with
              | nil => simp at hlen
              | cons x1 xs' =>
                  have hlen' : (y1 :: ys').length = (x1 :: xs').length := by
                    simpa using hlen
                  rw [trapz, ih (x1 :: xs') hlen']
                  have hn : (x0 :: x1 :: xs').length - 1
                      = ((x1 :: xs').length - 1) + 1 := by
                    simp
                  rw [hn, Finset.sum_range_succ']
                  simp only [List.getD_cons_succ, List.getD_cons_zero]
                  ring

/-! ### Helper lemmas: getD over map, set, replicate -/

theorem getD_map_range {β : Type} (f : Nat → β) (n b : Nat) (hb : b < n)
    (d : β) : ((List.range n).map f).getD b d = f b := by
  rw [List.getD_eq_getElem _ _ (by simpa using hb), List.getElem_map,
    List.getElem_range]

theorem getD_map_rows {β γ : Type} (g : β → γ) (l : List β) (b : Nat)
    (hb : b < l.length) (d : β) (d' : γ) :
    (l.map g).getD b d' = g (l.getD b d) := by
  rw [List.getD_eq_getElem _ _ (by simpa using hb), List.getElem_map,
    List.getD_eq_getElem _ _ hb]

theorem getD_map_clampNeg (row : List ℚ) (i : Nat) :
    (row.map clampNeg).getD i 0 = clampNeg (row.getD i 0) := by
  by_cases h : i < row.length
  · rw [List.getD_eq_getElem _ _ (by simpa using h), List.getElem_map,
      List.getD_eq_getElem _ _ h]
  · rw [List.getD_eq_default _ _ (by simpa using not_lt.mp h),
      List.getD_eq_default _ _ (not_lt.mp h)]
    simp [clampNeg]

theorem set_getD_self {β : Type} (l : List β) (i : Nat) (d : β) :
    l.set i (l.getD i d) = l := by
  induction l generalizing i with
  | nil => rfl
  | cons x xs ih =>
      cases i with
      | zero => simp
      | succ i => rw [List.getD_cons_succ, List.set_cons_succ, ih i]

theorem getD_set_ne {β : Type} (l : List β) (i j : Nat) (a : β) (d : β)
    (h : i ≠ j) : (l.set i a).getD j d = l.getD j d := by
  induction l generalizing i j with
  | nil => rfl
  | cons x xs ih =>
      cases i with
      | zero =>
          cases j with
          | zero => omega
          | succ j => simp
      | succ i =>
          cases j with
          | zero => simp
          | succ j => simpa using ih i j (by omega)

theorem getD_set_self {β : Type} (l : List β) (i : Nat) (a : β) (d : β)
    (h : i < l.length) : (l.set i a).getD i d = a := by
  induction l generalizing i with
  | nil => simp at h
  | cons x xs ih =>
      cases i with
      | zero => simp
      | succ i => simpa using ih i (by simpa using h)

/-! ### Helper lemmas: searchsorted uniqueness, uniform weights -/

theorem searchsorted_eq_of (a : List ℚ) (v : ℚ) (k : Nat) (hk : k ≤ a.length)
    (hbefore : ∀ j, j < k → a.getD j 0 < v)
    (hat : k < a.length → v ≤ a.getD k 0) : searchsorted a v = k := by
  induction a generalizing k with
  | nil =>
      have hk0 : k = 0 := by simpa using hk
      simp [searchsorted, hk0]
  | cons x xs ih =>
      cases k with
      | zero =>
          have hx := hat (by simp)
          rw [List.getD_cons_zero] at hx
          simp [searchsorted, hx]
      | succ k =>
          have h0 := hbefore 0 (by omega)
          rw [List.getD_cons_zero] at h0
          rw [searchsorted, if_neg (not_le.mpr h0)]
          congr 1
          refine ih k (by simpa using hk) ?_ ?_
          · intro j hj
            have := hbefore (j + 1) (by omega)
            rwa [List.getD_cons_succ] at this
          · intro hlt
            have := hat (by simpa using hlt)
            rwa [List.getD_cons_succ] at this

theorem cumsum_replicate_one (N : Nat) :
    cumsum (List.replicate N 1)
      = (List.range N).map (fun i : Nat => ((i : ℚ) + 1)) := by
  induction N with
  | zero => simp [cumsum]
  | succ N ih =>
      rw [List.replicate_succ, cumsum, ih, List.range_succ_eq_map,
        List.map_cons, List.map_map, List.map_map]
      refine List.cons_eq_cons.mpr ⟨by norm_num, ?_⟩
      refine List.map_congr_left ?_
      intro a _
      simp only [Function.comp_apply]
      push_cast
      ring

theorem weight_cumsum_uniform (N : Nat) (order : List Nat)
    (hord : order.Perm (List.range N)) :
    weight_cumsum (List.replicate N (1 : ℚ)) order
      = (List.range N).map (fun i : Nat => ((i : ℚ) + 1) / N) := by
  have hlen : order.length = N := hord.length_eq.trans (List.length_range N)
  have hgather : gather 0 (List.replicate N (1 : ℚ)) order
      = List.replicate N (1 : ℚ) := by
    rw [gather]
    have h1 : ∀ i ∈ order, (List.replicate N (1 : ℚ)).getD i 0 = 1 := by
      intro i hi
      have hiN : i < N := List.mem_range.mp (hord.mem_iff.mp hi)
      rw [List.getD_eq_getElem _ _ (by simpa using hiN), List.getElem_replicate]
    calc List.map (fun i => (List.replicate N (1 : ℚ)).getD i 0) order
        = List.map (Function.const Nat (1 : ℚ)) order :=
          List.map_congr_left (fun a ha => h1 a ha)
      _ = List.replicate order.length 1 := List.map_const order 1
      _ = List.replicate N 1 := by rw [hlen]
  have hsum : (List.replicate N (1 : ℚ)).sum = N := by
    rw [List.sum_replicate, nsmul_eq_mul, mul_one]
  rw [weight_cumsum, hgather, cumsum_replicate_one, hsum, List.map_map]
  exact List.map_congr_left (fun a _ => rfl)

theorem searchsorted_uniform (N k : Nat) (hk : k < N) :
    searchsorted ((List.range N).map (fun i : Nat => ((i : ℚ) + 1) / N))
      ((k + 1 / 2) / N) = k := by
  have hN : (0 : ℚ) < N := by
    have : 0 < N := by omega
    exact_mod_cast this
  refine searchsorted_eq_of _ _ k (by rw [List.length_map, List.length_range]; omega)
    ?_ ?_
  · intro j hj
    rw [getD_map_range _ N j (by omega) 0]
    have hnum : ((j : ℚ) + 1) < (k : ℚ) + 1 / 2 := by
      have hjk : (j : ℚ) + 1 ≤ (k : ℚ) := by exact_mod_cast Nat.succ_le_of_lt hj
      linarith
    exact div_lt_div_of_pos_right hnum hN
  · intro _
    rw [getD_map_range _ N k (by omega) 0]
    have hnum : (k : ℚ) + 1 / 2 ≤ (k : ℚ) + 1 := by linarith
    exact div_le_div_of_nonneg_right hnum hN.le

/-! ### Claim theorems -/

/-- C10 counterexample: with source = dest = "a" and a block holding
section "a", rename_section's execute leaves the block with no section
"a" at all, so the dest section does not hold the former contents of the
source — the claim fails on the pair ("a", "a"). -/
theorem c10_same_section_counterexample :
    (rename_execute (rename_setup "a" "a")
        (fun s => if s = "a" then some [("k", (1 : ℚ))] else none)).1 "a"
        = none ∧
      (fun s : String => if s = "a" then some [("k", (1 : ℚ))] else none) "a"
        = some [("k", (1 : ℚ))] := by
  constructor
  · simp [rename_execute, rename_setup, delete_section, copy_section]
  · simp

/-- C10 (amended): for every configured (source, dest) pair with
source ≠ dest, after rename_section's execute the dest section holds
exactly the former contents of the source, the source section no longer
exists, every other section is unchanged, and execute returns 0. -/
theorem c10_rename_execute {V : Type} (source dest : String)
    (b : String → Option V) (hne : source ≠ dest) :
    (rename_execute (rename_setup source dest) b).1 dest = b source ∧
      (rename_execute (rename_setup source dest) b).1 source = none ∧
      (∀ s, s ≠ source → s ≠ dest →
        (rename_execute (rename_setup source dest) b).1 s = b s) ∧
      (rename_execute (rename_setup source dest) b).2 = 0 := by
  have hne' : dest ≠ source := Ne.symm hne
  refine ⟨?_, ?_, ?_, rfl⟩
  · simp [rename_execute, rename_setup, delete_section, copy_section, hne']
  · simp [rename_execute, rename_setup, delete_section]
  · intro s hs1 hs2
    simp [rename_execute, rename_setup, delete_section, copy_section, hs1, hs2]

/-- C10 witness: the amended rename_section contract at the concrete pair
("a", "b") on a block holding only section "a". -/
theorem c10_rename_execute_witness :
    (rename_execute (rename_setup "a" "b")
        (fun s => if s = "a" then some [("k", (1 : ℚ))] else none)).1 "b"
        = (fun s : String => if s = "a" then some [("k", (1 : ℚ))] else none) "a" ∧
      (rename_execute (rename_setup "a" "b")
        (fun s => if s = "a" then some [("k", (1 : ℚ))] else none)).1 "a"
        = none ∧
      (∀ s, s ≠ "a" → s ≠ "b" →
        (rename_execute (rename_setup "a" "b")
          (fun s => if s = "a" then some [("k", (1 : ℚ))] else none)).1 s
          = (fun s : String => if s = "a" then some [("k", (1 : ℚ))] else none) s) ∧
      (rename_execute (rename_setup "a" "b")
        (fun s => if s = "a" then some [("k", (1 : ℚ))] else none)).2 = 0 :=
  c10_rename_execute "a" "b"
    (fun s => if s = "a" then some [("k", (1 : ℚ))] else none) (by decide)

/-- C4: ensure_starts_at_zero prepends a zero grid point and a zero
density per bin — shifting the rest over by one and clamping negative
densities to zero — exactly when the first grid point is not numerically
zero (> 1e-8); when the grid already starts at (numerical) zero it
returns the input unchanged except that negative densities are clamped;
concretely, grid [0.1, 0.2] with one-bin density [0.4, 0.6] becomes grid
[0, 0.1, 0.2] with density [0, 0.4, 0.6]. -/
theorem c4_ensure_starts_at_zero (z : List ℚ) (nz : List (List ℚ)) :
    ((1 / 100000000 < z.getD 0 0 →
        (ensure_starts_at_zero z nz).1.length = z.length + 1 ∧
        (ensure_starts_at_zero z nz).1.getD 0 0 = 0 ∧
        (∀ i, (ensure_starts_at_zero z nz).1.getD (i + 1) 0 = z.getD i 0) ∧
        (ensure_starts_at_zero z nz).2.length = nz.length ∧
        (∀ b, b < nz.length →
          ((ensure_starts_at_zero z nz).2.getD b []).length
              = (nz.getD b []).length + 1 ∧
            ((ensure_starts_at_zero z nz).2.getD b []).getD 0 0 = 0 ∧
            ∀ i, ((ensure_starts_at_zero z nz).2.getD b []).getD (i + 1) 0
              = clampNeg ((nz.getD b []).getD i 0))) ∧
      (z.getD 0 0 ≤ 1 / 100000000 →
        (ensure_starts_at_zero z nz).1 = z ∧
        (ensure_starts_at_zero z nz).2.length = nz.length ∧
        ∀ b, b < nz.length →
          (ensure_starts_at_zero z nz).2.getD b []
            = (nz.getD b []).map clampNeg) ∧
      (∀ x : ℚ, (x < 0 → clampNeg x = 0) ∧ (0 ≤ x → clampNeg x = x))) ∧
      ensure_starts_at_zero [1/10, 2/10] [[4/10, 6/10]]
        = ([0, 1/10, 2/10], [[0, 4/10, 6/10]]) := by
  refine ⟨⟨?_, ?_, ?_⟩, ?_⟩
  · intro hz
    rw [ensure_starts_at_zero, if_pos hz]
    refine ⟨by simp, by simp, fun i => by simp, by simp, ?_⟩
    intro b hb
    rw [getD_map_rows _ nz b hb [] []]
    refine ⟨by simp, ?_, ?_⟩
    · rw [List.map_cons, List.getD_cons_zero]
      simp [clampNeg]
    · intro i
      rw [List.map_cons, List.getD_cons_succ, getD_map_clampNeg]
  · intro hz
    rw [ensure_starts_at_zero, if_neg (not_lt.mpr hz)]
    refine ⟨rfl, by simp, ?_⟩
    intro b hb
    exact getD_map_rows _ nz b hb [] []
  · intro x
    constructor
    · intro hx; simp [clampNeg, hx]
    · intro hx; simp [clampNeg, not_lt.mpr hx]
  · norm_num [ensure_starts_at_zero, clampNeg]

/-- C4 witness: the zero-floor transform at the spec's concrete grid and
density, through the prepend branch of the theorem. -/
theorem c4_ensure_starts_at_zero_witness :
    (1 / 100000000 < ([1/10, 2/10] : List ℚ).getD 0 0) ∧
      (ensure_starts_at_zero [1/10, 2/10] [[4/10, 6/10]]).1.getD 0 0 = 0 := by
  have h := c4_ensure_starts_at_zero [1/10, 2/10] [[4/10, 6/10]]
  have hz : (1 : ℚ) / 100000000 < ([1/10, 2/10] : List ℚ).getD 0 0 := by
    norm_num
  exact ⟨hz, ((h.1.1 hz).2.1)⟩

/-- C8 counterexample: on grid [0, 1] with density [0, 1] the code's
statistic np.trapz(nz·z, z) equals 1/2, while the claimed plain sum
Σ density(z)·z equals 1, so the claim fails at this input. -/
theorem c8_trapz_counterexample :
    nz_mean_stat [0, 1] [0, 1] = 1 / 2 ∧
      spec_sum_moment [0, 1] [0, 1] = 1 ∧
      nz_mean_stat [0, 1] [0, 1] ≠ spec_sum_moment [0, 1] [0, 1] := by
  refine ⟨?_, ?_, ?_⟩ <;>
    norm_num [nz_mean_stat, spec_sum_moment, trapz, List.zipWith]

/-- C8 (amended): the mean-redshift ranking statistic is the
trapezoid-rule integral of density·z over the histogram's grid,
Σ_j (d_j z_j + d_{j+1} z_{j+1})/2 · (z_{j+1} − z_j), not the plain sum
Σ d_j z_j. -/
theorem c8_mean_redshift_trapz (zmid nz : List ℚ)
    (hlen : nz.length = zmid.length) :
    nz_mean_stat zmid nz = ∑ j ∈ Finset.range (zmid.length - 1),
      (nz.getD j 0 * zmid.getD j 0 + nz.getD (j + 1) 0 * zmid.getD (j + 1) 0)
        / 2 * (zmid.getD (j + 1) 0 - zmid.getD j 0) := by
  rw [nz_mean_stat,
    trapz_eq_sum _ _ (by rw [List.length_zipWith]; omega)]
  refine Finset.sum_congr rfl ?_
  intro j hj
  have hjlt : j < zmid.length - 1 := Finset.mem_range.mp hj
  have h1 : j < zmid.length := by omega
  have h2 : j + 1 < zmid.length := by omega
  have h1n : j < nz.length := by omega
  have h2n : j + 1 < nz.length := by omega
  have hz : ∀ m, m < zmid.length → m < nz.length →
      (List.zipWith (fun d z => d * z) nz zmid).getD m 0
        = nz.getD m 0 * zmid.getD m 0 := by
    intro m hm1 hm2
    have hm : m < (List.zipWith (fun d z => d * z) nz zmid).length := by
      rw [List.length_zipWith]; omega
    rw [List.getD_eq_getElem _ _ hm, List.getElem_zipWith,
      List.getD_eq_getElem _ _ hm2, List.getD_eq_getElem _ _ hm1]
  rw [hz j h1 h1n, hz (j + 1) h2 h2n]

/-- C8 witness: the amended statistic formula at the counterexample's
concrete grid and density. -/
theorem c8_mean_redshift_trapz_witness :
    nz_mean_stat [0, 1] [0, 1]
      = ∑ j ∈ Finset.range (([0, 1] : List ℚ).length - 1),
        (([0, 1] : List ℚ).getD j 0 * ([0, 1] : List ℚ).getD j 0
            + ([0, 1] : List ℚ).getD (j + 1) 0 * ([0, 1] : List ℚ).getD (j + 1) 0)
          / 2 * (([0, 1] : List ℚ).getD (j + 1) 0 - ([0, 1] : List ℚ).getD j 0) :=
  c8_mean_redshift_trapz [0, 1] [0, 1] rfl

/-- C6: with non-negative realisation weights (the data model's invariant)
of positive total, and order a permutation of the realisation indices, the
cumulative-weight table — weights reordered by order, running-summed, and
divided by the total — is non-decreasing, lies in [0, 1], and its last
entry equals exactly 1; and the weight validation fails with the fatal
all-zero error whenever every weight is zero. -/
theorem c6_cumulative_weight (weights : List ℚ) (order : List Nat)
    (hnn : ∀ w ∈ weights, 0 ≤ w) (hpos : 0 < weights.sum)
    (hord : order.Perm (List.range weights.length)) :
    List.Chain' (· ≤ ·) (weight_cumsum weights order) ∧
      (∀ x ∈ weight_cumsum weights order, 0 ≤ x ∧ x ≤ 1) ∧
      (weight_cumsum weights order).getD
        ((weight_cumsum weights order).length - 1) 0 = 1 ∧
      (∀ ws : List ℚ, ws ≠ [] → (∀ w ∈ ws, w = 0) →
        setupWeightCheck ws
          = Except.error "All realisations have zero weight") := by
  have hg : (gather 0 weights order).Perm weights := gather_perm 0 weights order hord
  have hgnn : ∀ w ∈ gather 0 weights order, 0 ≤ w := by
    intro w hw
    exact hnn w (hg.mem_iff.mp hw)
  have hgsum : (gather 0 weights order).sum = weights.sum := hg.sum_eq
  have hwne : weights ≠ [] := by
    intro hw
    rw [hw] at hpos
    simp at hpos
  have hglen : (gather 0 weights order).length = weights.length := hg.length_eq
  have hgne : gather 0 weights order ≠ [] := by
    intro hw
    apply hwne
    have := hglen
    rw [hw] at this
    cases weights with
    | nil => rfl
    | cons a l => simp at this
  refine ⟨?_, ?_, ?_, ?_⟩
  · refine List.chain'_map_of_chain' _ ?_ (cumsum_chain' _ hgnn)
    intro a b hab
    exact div_le_div_of_nonneg_right hab hpos.le
  · intro x hx
    rw [weight_cumsum, List.mem_map] at hx
    obtain ⟨y, hy, rfl⟩ := hx
    rw [List.mem_iff_getElem] at hy
    obtain ⟨i, hi, rfl⟩ := hy
    have hilen : i < (gather 0 weights order).length := by
      rw [← cumsum_length]; exact hi
    rw [← List.getD_eq_getElem _ 0 hi, cumsum_getD _ i hilen]
    constructor
    · exact div_nonneg (sum_take_nonneg _ hgnn _) hpos.le
    · rw [div_le_one hpos]
      calc ((gather 0 weights order).take (i + 1)).sum
          ≤ (gather 0 weights order).sum := sum_take_le_sum _ hgnn _
        _ = weights.sum := hgsum
  · have hLlen : (cumsum (gather 0 weights order)).length
        = (gather 0 weights order).length := cumsum_length _
    have hpos' : 0 < (gather 0 weights order).length := List.length_pos.mpr hgne
    have hlenw : (weight_cumsum weights order).length
        = (gather 0 weights order).length := by
      rw [weight_cumsum, List.length_map, cumsum_length]
    rw [hlenw, weight_cumsum,
      getD_map_rows (fun x => x / weights.sum) (cumsum (gather 0 weights order))
        ((gather 0 weights order).length - 1) (by rw [hLlen]; omega) 0 0,
      cumsum_last _ hgne, hgsum]
    exact div_self (ne_of_gt hpos)
  · intro ws hne hzero
    have hb : allWeightsZero ws = true := by
      rw [allWeightsZero, Bool.and_eq_true, Bool.not_eq_true']
      constructor
      · cases ws with
        | nil => exact absurd rfl hne
        | cons a l => rfl
      · rw [List.all_eq_true]
        intro w hw
        exact beq_iff_eq.mpr (hzero w hw)
    rw [setupWeightCheck, if_pos hb]

/-- C6 witness: the cumulative-weight contract at two uniform weights with
the swapped ordering, and the all-zero fatal check at [0, 0]. -/
theorem c6_cumulative_weight_witness :
    List.Chain' (· ≤ ·) (weight_cumsum [1, 1] [1, 0]) ∧
      (∀ x ∈ weight_cumsum [1, 1] [1, 0], 0 ≤ x ∧ x ≤ 1) ∧
      (weight_cumsum [1, 1] [1, 0]).getD
        ((weight_cumsum [1, 1] [1, 0]).length - 1) 0 = 1 ∧
      (∀ ws : List ℚ, ws ≠ [] → (∀ w ∈ ws, w = 0) →
        setupWeightCheck ws
          = Except.error "All realisations have zero weight") :=
  c6_cumulative_weight [1, 1] [1, 0]
    (by
      intro w hw
      have h1 : w = 1 := by simpa using hw
      rw [h1]
      norm_num)
    (by norm_num)
    (by decide)

/-- C5: in every supported mode — given the preconditions that the
statistic tables have one row per realisation, the external ranking table
has exactly n values, and the pseudo-random draws are in range — the
produced order (the per-bin order column, for separate modes) is a
permutation of [0, n) and rank = argsort(order) is its inverse:
rank[order[k]] = k for all k < n. -/
theorem c5_order_permutation (mode : String) (hmode : mode ∈ modes)
    (n : Nat) (nz_mean inv_chi_mean : List (List ℚ)) (external : List ℚ)
    (draw : Nat → Nat) (b : Nat)
    (hnz : nz_mean.length = n) (hchi : inv_chi_mean.length = n)
    (hext : external.length = n) (hdraw : ∀ m, draw m ≤ m) :
    (setup_order mode n nz_mean inv_chi_mean external draw b).Perm
        (List.range n) ∧
      ∀ k, k < n →
        (rank_of (setup_order mode n nz_mean inv_chi_mean external draw b)).getD
          ((setup_order mode n nz_mean inv_chi_mean external draw b).getD k 0) 0
          = k := by
  have hperm : (setup_order mode n nz_mean inv_chi_mean external draw b).Perm
      (List.range n) := by
    have hmode' : mode = "unified" ∨ mode = "separate"
        ∨ mode = "inv-chi-unified" ∨ mode = "inv-chi-separate"
        ∨ mode = "random" ∨ mode = "external" ∨ mode = "no-rank" := by
      simpa [modes] using hmode
    rcases hmode' with rfl | rfl | rfl | rfl | rfl | rfl | rfl
    · have h := argsort_perm
        (nz_mean.map (fun row => row.sum / (row.length : ℚ)))
      rw [List.length_map, hnz] at h
      simpa [setup_order, order_unified] using h
    · have hcl : (column nz_mean b).length = n := by
        rw [column, List.length_map, hnz]
      have h := argsort_perm (column nz_mean b)
      rw [hcl] at h
      simpa [setup_order, order_separate] using h
    · have h := argsort_perm
        (inv_chi_mean.map (fun row => row.sum / (row.length : ℚ)))
      rw [List.length_map, hchi] at h
      simpa [setup_order, order_unified] using h
    · have hcl : (column inv_chi_mean b).length = n := by
        rw [column, List.length_map, hchi]
      have h := argsort_perm (column inv_chi_mean b)
      rw [hcl] at h
      simpa [setup_order, order_separate] using h
    · have h := order_random_perm n draw hdraw
      simpa [setup_order] using h
    · have h := argsort_perm external
      rw [hext] at h
      simpa [setup_order, order_external] using h
    · simp [setup_order]
  refine ⟨hperm, ?_⟩
  intro k hk
  have hlen : (setup_order mode n nz_mean inv_chi_mean external draw b).length
      = n := hperm.length_eq.trans (List.length_range n)
  exact argsort_inverse _ (by rw [hlen]; exact hperm) k (by omega)

/-- C5 witness: the permutation and inverse-rank contract in unified mode
for two realisations with statistic rows [[1]] and [[0]]. -/
theorem c5_order_permutation_witness :
    (setup_order "unified" 2 [[1], [0]] [[0], [0]] [0, 0] (fun _ => 0) 0).Perm
        (List.range 2) ∧
      ∀ k, k < 2 →
        (rank_of (setup_order "unified" 2 [[1], [0]] [[0], [0]] [0, 0]
            (fun _ => 0) 0)).getD
          ((setup_order "unified" 2 [[1], [0]] [[0], [0]] [0, 0]
            (fun _ => 0) 0).getD k 0) 0 = k :=
  c5_order_permutation "unified" (by decide) 2 [[1], [0]] [[0], [0]] [0, 0]
    (fun _ => 0) 0 rfl rfl rfl (fun m => Nat.zero_le m)

/-- C3 counterexample: unified mode sorts with np.argsort's default kind,
which guarantees only a sorted permutation of the indices — not a stable
tie order.  On the tied two-realisation statistic table [[0]], [[0]] the
averaged keys are [0, 0], and the index list [1, 0] satisfies everything
the program's sort guarantees while violating the claimed stable
tie-break by original index: the claim's tie clause is not a property of
the code. -/
theorem c3_stable_ties_counterexample :
    isArgsortOf (([[0], [0]] : List (List ℚ)).map
        (fun row => row.sum / (row.length : ℚ))) [1, 0] ∧
      ¬ List.Pairwise (fun i j : Nat =>
          (([[0], [0]] : List (List ℚ)).map
              (fun row => row.sum / (row.length : ℚ))).getD i 0
            = (([[0], [0]] : List (List ℚ)).map
              (fun row => row.sum / (row.length : ℚ))).getD j 0 → i ≤ j)
        [1, 0] := by
  have hkeys : ([[0], [0]] : List (List ℚ)).map
      (fun row => row.sum / (row.length : ℚ)) = [0, 0] := by norm_num
  rw [hkeys]
  refine ⟨⟨by decide, ?_⟩, ?_⟩
  · norm_num [List.pairwise_cons]
  · intro hp
    rw [List.pairwise_cons] at hp
    have h1 := hp.1 0 (by simp)
    norm_num at h1

/-- C3 (amended): unified mode orders realisations ascending by the
across-bin mean of the per-bin mean-redshift statistic; on tied keys the
order is unspecified (np.argsort's default kind is not stable), so for
every output satisfying the sort's contract the ranked statistic is
non-decreasing along the ranked axis — and the embedding's order_unified
is such an output; on the spec's example of four realisations with the
distinct statistics [0.3, 0.1, 0.4, 0.2] the contract forces the unique
order [1, 3, 0, 2], the uniform cumulative weights are [1/4, 1/2, 3/4, 1],
hyperparameter 0.3 selects ranked index 1, and realisation 3's histogram
is returned. -/
theorem c3_unified_order_amended :
    (∀ (nzMean : List (List ℚ)) (o : List Nat),
        isArgsortOf (nzMean.map (fun row => row.sum / (row.length : ℚ))) o →
        List.Pairwise (fun x y => x ≤ y)
          (gather 0 (nzMean.map (fun row => row.sum / (row.length : ℚ))) o)) ∧
      (∀ nzMean : List (List ℚ),
        isArgsortOf (nzMean.map (fun row => row.sum / (row.length : ℚ)))
          (order_unified nzMean)) ∧
      (∀ o : List Nat,
        isArgsortOf (([[3/10], [1/10], [4/10], [2/10]] : List (List ℚ)).map
          (fun row => row.sum / (row.length : ℚ))) o → o = [1, 3, 0, 2]) ∧
      weight_cumsum [1, 1, 1, 1] [1, 3, 0, 2] = [1/4, 1/2, 3/4, 1] ∧
      searchsorted (weight_cumsum [1, 1, 1, 1] [1, 3, 0, 2]) (3/10) = 1 ∧
      (gather ([] : List (List ℚ))
          ([[[5]], [[6]], [[7]], [[8]]] : List (List (List ℚ)))
          [1, 3, 0, 2]).getD
        (searchsorted (weight_cumsum [1, 1, 1, 1] [1, 3, 0, 2]) (3/10)) []
        = [[(8 : ℚ)]] := by
  refine ⟨?_, ?_, ?_, ?_, ?_, ?_⟩
  · intro nzMean o ho
    exact List.pairwise_map.mpr ho.2
  · intro nzMean
    exact ⟨argsort_perm _, argsortKey_pairwise_le _ _⟩
  · intro o ho
    have hkeys : ([[3/10], [1/10], [4/10], [2/10]] : List (List ℚ)).map
        (fun row => row.sum / (row.length : ℚ)) = [3/10, 1/10, 4/10, 2/10] := by
      norm_num
    rw [hkeys] at ho
    have hnd : ([3/10, 1/10, 4/10, 2/10] : List ℚ).Nodup := by
      norm_num [List.nodup_cons]
    have hstd : isArgsortOf [3/10, 1/10, 4/10, 2/10] [1, 3, 0, 2] := by
      refine ⟨by decide, ?_⟩
      norm_num [List.pairwise_cons]
    exact isArgsortOf_unique [3/10, 1/10, 4/10, 2/10] hnd o [1, 3, 0, 2] ho hstd
  · norm_num [weight_cumsum, gather, cumsum]
  · norm_num [searchsorted, weight_cumsum, gather, cumsum]
  · norm_num [gather, searchsorted, weight_cumsum, cumsum]

/-- C2: for every grouped mode execute takes the single-hyperparameter
branch; the selected index k = searchsorted(cumulative_weight, h) is the
first index whose cumulative weight is ≥ h (every earlier entry is < h);
every tomographic bin's histogram written out is the zero-floored row b of
that single selected realisation; and with uniform weights (weight[i] = 1
for all i) the hyperparameter h = (k+1/2)/N selects ranked index k, for
every k < N. -/
theorem c2_grouped_selection (cfg : ConfigG) (h : ℚ) :
    (∀ mode ∈ groupedModes,
        executeDispatchGrouped mode cfg h = some (executeGrouped cfg h)) ∧
      (∀ j, j < searchsorted cfg.weights h → cfg.weights.getD j 0 < h) ∧
      (searchsorted cfg.weights h < cfg.weights.length →
        h ≤ cfg.weights.getD (searchsorted cfg.weights h) 0) ∧
      (∀ b, b < cfg.n_bins →
        b < (cfg.ranked_nz.getD (searchsorted cfg.weights h) []).length →
        (executeGrouped cfg h).1.bins.getD b []
          = if 1 / 100000000 < cfg.zmid.getD 0 0 then
              ((0 : ℚ) ::
                (cfg.ranked_nz.getD (searchsorted cfg.weights h) []).getD b []).map
                clampNeg
            else
              ((cfg.ranked_nz.getD (searchsorted cfg.weights h) []).getD b []).map
                clampNeg) ∧
      (∀ N k : Nat, ∀ order : List Nat, k < N → order.Perm (List.range N) →
        searchsorted (weight_cumsum (List.replicate N 1) order)
          ((k + 1 / 2) / N) = k) := by
  refine ⟨?_, ?_, ?_, ?_, ?_⟩
  · intro mode hmode
    rw [executeDispatchGrouped, if_pos hmode]
  · exact fun j hj => searchsorted_before cfg.weights h j hj
  · exact fun hlt => searchsorted_at cfg.weights h hlt
  · intro b hb hb2
    show ((List.range cfg.n_bins).map
        (fun m => (ensure_starts_at_zero cfg.zmid
          (cfg.ranked_nz.getD (searchsorted cfg.weights h) [])).2.getD m [])).getD
        b [] = _
    rw [getD_map_range _ _ b hb [], ensure_starts_at_zero]
    by_cases hz : 1 / 100000000 < cfg.zmid.getD 0 0
    · rw [if_pos hz, if_pos hz]
      exact getD_map_rows _ _ b hb2 [] []
    · rw [if_neg hz, if_neg hz]
      exact getD_map_rows _ _ b hb2 [] []
  · intro N k order hk hord
    rw [weight_cumsum_uniform N order hord]
    exact searchsorted_uniform N k hk

/-- C2 witness: the uniform-weight inverse-CDF clause at N = 4, k = 1 with
the order [1, 3, 0, 2]. -/
theorem c2_grouped_selection_witness :
    searchsorted (weight_cumsum (List.replicate 4 1) [1, 3, 0, 2])
      ((1 + 1 / 2) / 4) = 1 :=
  (c2_grouped_selection ⟨[], [], [], [], 0⟩ 0).2.2.2.2 4 1 [1, 3, 0, 2]
    (by omega) (by decide)

/-- C7 counterexample: with upsampling 3, native bin edges [0, 1, 2]
(zlow = [0, 1], zhigh = [1, 2]) and native density [0.2, 0.8], the
pre-normalization sum over the upsampled grid is 3 — not the native total
mass 1 — so the extracted calibration bias is 2 for the upsampled
histogram but 0 for the native one: the bias is not invariant under
upsampling. -/
theorem c7_upsampling_bias_counterexample :
    (upsample_nz [0, 1] 2 [2/10, 8/10] 3).sum = 3 ∧
      ([2/10, 8/10] : List ℚ).sum = 1 ∧
      (load_histogram_form ⟨[0, 1], [1, 2], [1/2, 3/2], [[2/10, 8/10]]⟩ 1 3).2.2
        = 2 ∧
      (load_histogram_form ⟨[0, 1], [1, 2], [1/2, 3/2], [[2/10, 8/10]]⟩ 1 1).2.2
        = 0 := by
  refine ⟨?_, ?_, ?_, ?_⟩ <;>
    norm_num [load_histogram_form, upsample_nz, upsample_grid, linspace,
      digitize, List.range, List.range.loop, List.filter]

/-- C7 (amended): upsampling preserves the step function — the upsampled
density at each fine grid point equals the native density of the coarse
bin that point falls into, i.e. of the bin whose lower edge is the last
edge ≤ the point — but the pre-normalization sum it feeds into is the sum
of those per-fine-point native values, which does not recover the native
total mass (counterexample above), so the calibration bias is not
invariant under upsampling. -/
theorem c7_upsampling_step_preservation (zlow : List ℚ) (zmax : ℚ)
    (native : List ℚ) (u : Nat)
    (hsorted : List.Pairwise (· ≤ ·) zlow) (hne : zlow ≠ [])
    (j : Nat) (hj : j < (upsample_grid zlow zmax u).length)
    (hge : zlow.getD 0 0 ≤ (upsample_grid zlow zmax u).getD j 0) :
    (upsample_nz zlow zmax native u).getD j 0
        = native.getD
            (digitize ((upsample_grid zlow zmax u).getD j 0) zlow - 1) 0 ∧
      zlow.getD (digitize ((upsample_grid zlow zmax u).getD j 0) zlow - 1) 0
        ≤ (upsample_grid zlow zmax u).getD j 0 ∧
      (digitize ((upsample_grid zlow zmax u).getD j 0) zlow < zlow.length →
        (upsample_grid zlow zmax u).getD j 0
          < zlow.getD (digitize ((upsample_grid zlow zmax u).getD j 0) zlow) 0) := by
  obtain ⟨h1, h2⟩ :=
    digitize_mono_spec ((upsample_grid zlow zmax u).getD j 0) zlow hsorted
  have hpos : 0 < digitize ((upsample_grid zlow zmax u).getD j 0) zlow :=
    digitize_pos _ zlow hne hge
  refine ⟨?_, ?_, h2⟩
  · exact getD_map_rows _ _ j hj 0 0
  · exact h1 _ (by omega)

/-- C7 witness: step preservation at the counterexample's fine grid point
number 4 (redshift 8/5, falling in the native bin [1, 2)). -/
theorem c7_upsampling_step_preservation_witness :
    (upsample_nz [0, 1] 2 [2/10, 8/10] 3).getD 4 0
        = ([2/10, 8/10] : List ℚ).getD
            (digitize ((upsample_grid [0, 1] 2 3).getD 4 0) [0, 1] - 1) 0 ∧
      ([0, 1] : List ℚ).getD
          (digitize ((upsample_grid [0, 1] 2 3).getD 4 0) [0, 1] - 1) 0
        ≤ (upsample_grid [0, 1] 2 3).getD 4 0 ∧
      (digitize ((upsample_grid [0, 1] 2 3).getD 4 0) [0, 1]
          < ([0, 1] : List ℚ).length →
        (upsample_grid [0, 1] 2 3).getD 4 0
          < ([0, 1] : List ℚ).getD
              (digitize ((upsample_grid [0, 1] 2 3).getD 4 0) [0, 1]) 0) :=
  c7_upsampling_step_preservation [0, 1] 2 [2/10, 8/10] 3
    (by norm_num)
    (by simp)
    4
    (by rw [upsample_grid, linspace, List.length_map, List.length_range]; norm_num)
    (by norm_num [upsample_grid, linspace, List.range, List.range.loop])

/-- C9 counterexample: a config whose grid already starts at zero and
whose single stored realisation has a negative density entry; executing
the grouped branch clamps the stored histogram in place, so after the
call the RankedEnsemble's stored ranked_nz has changed — execute is not
side-effect-free on the ensemble. -/
theorem c9_execute_mutates_counterexample :
    (executeGrouped ⟨[[[-1, 1]]], [[0]], [1], [0, 1], 1⟩ 0).2.ranked_nz
        = [[[0, 1]]] ∧
      ((⟨[[[-1, 1]]], [[0]], [1], [0, 1], 1⟩ : ConfigG).ranked_nz
        = [[[0, 1]]] → False) := by
  constructor
  · norm_num [executeGrouped, searchsorted, ensure_starts_at_zero_argAfter,
      clampNeg]
  · intro hcon
    norm_num at hcon

/-- C9 (amended): execute never touches the stored cumulative weights,
calibration biases, grid or bin count, and the separate branch leaves the
config fully unchanged (it copies the selected rows before the zero-floor
transform); the grouped branch, however, hands ensure_starts_at_zero a
view of the stored ranked_nz[sample], so when the shared grid already
starts at (numerically) zero the selected realisation's stored histograms
get their negative entries clamped in place; realisations other than the
selected one are untouched, and when the grid's first point exceeds 1e-8
the config is fully unchanged. -/
theorem c9_execute_frame (cfg : ConfigG) (h : ℚ) (cfgS : ConfigS)
    (hs : Nat → ℚ) :
    ((executeGrouped cfg h).2.weights = cfg.weights ∧
        (executeGrouped cfg h).2.ranked_cal = cfg.ranked_cal ∧
        (executeGrouped cfg h).2.zmid = cfg.zmid ∧
        (executeGrouped cfg h).2.n_bins = cfg.n_bins) ∧
      (1 / 100000000 < cfg.zmid.getD 0 0 → (executeGrouped cfg h).2 = cfg) ∧
      (∀ i, i ≠ searchsorted cfg.weights h →
        (executeGrouped cfg h).2.ranked_nz.getD i []
          = cfg.ranked_nz.getD i []) ∧
      (cfg.zmid.getD 0 0 ≤ 1 / 100000000 →
        (executeGrouped cfg h).2.ranked_nz.getD (searchsorted cfg.weights h) []
          = (cfg.ranked_nz.getD (searchsorted cfg.weights h) []).map
              (fun row => row.map clampNeg)) ∧
      (executeSeparate cfgS hs).2 = cfgS := by
  refine ⟨⟨rfl, rfl, rfl, rfl⟩, ?_, ?_, ?_, rfl⟩
  · intro hz
    show { cfg with
        ranked_nz := cfg.ranked_nz.set (searchsorted cfg.weights h)
          (ensure_starts_at_zero_argAfter cfg.zmid
            (cfg.ranked_nz.getD (searchsorted cfg.weights h) [])) } = cfg
    rw [ensure_starts_at_zero_argAfter, if_pos hz, set_getD_self]
  · intro i hi
    show (cfg.ranked_nz.set (searchsorted cfg.weights h)
        (ensure_starts_at_zero_argAfter cfg.zmid
          (cfg.ranked_nz.getD (searchsorted cfg.weights h) []))).getD i []
        = cfg.ranked_nz.getD i []
    exact getD_set_ne _ _ _ _ _ (Ne.symm hi)
  · intro hz
    show (cfg.ranked_nz.set (searchsorted cfg.weights h)
        (ensure_starts_at_zero_argAfter cfg.zmid
          (cfg.ranked_nz.getD (searchsorted cfg.weights h) []))).getD
        (searchsorted cfg.weights h) []
        = (cfg.ranked_nz.getD (searchsorted cfg.weights h) []).map
            (fun row => row.map clampNeg)
    rw [ensure_starts_at_zero_argAfter, if_neg (not_lt.mpr hz)]
    by_cases hlt : searchsorted cfg.weights h < cfg.ranked_nz.length
    · exact getD_set_self _ _ _ _ hlt
    · rw [List.set_eq_of_length_le (by omega),
        List.getD_eq_default cfg.ranked_nz [] (by omega)]
      simp

/-- C9 witness: the frame property at a config whose grid starts above the
numerical-zero threshold — the config is returned fully unchanged. -/
theorem c9_execute_frame_witness :
    (executeGrouped ⟨[[[1, 2]]], [[0]], [1], [1/10, 2/10], 1⟩ 0).2
      = (⟨[[[1, 2]]], [[0]], [1], [1/10, 2/10], 1⟩ : ConfigG) :=
  (c9_execute_frame ⟨[[[1, 2]]], [[0]], [1], [1/10, 2/10], 1⟩ 0
    ⟨[], [], [], 0⟩ (fun _ => 0)).2.1 (by norm_num)

/-- C1 (code bug): config['ranked_cal'] is assigned only inside the
mode == 'unified' branch of setup but is read unconditionally when the
config dictionary is built, so for every supported mode other than
unified, setup fails with NameError (embedded: none) instead of producing
calibration biases permuted by order, and execute's separate branch writes
no calibration bias at all; in unified mode the claimed behaviour holds —
ranked_cal is the bias table permuted by order, and execute's grouped
branch writes, for each bin b, entry b of the selected realisation's
calibration-bias row. -/
theorem c1_calibration_bias (bias : List (List ℚ)) (order : List Nat)
    (cfg : ConfigG) (h : ℚ) :
    (∀ mode ∈ modes, mode ≠ "unified" →
        setup_ranked_cal mode bias order = none) ∧
      setup_ranked_cal "unified" bias order = some (gather [] bias order) ∧
      (∀ k, k < order.length →
        (gather ([] : List ℚ) bias order).getD k []
          = bias.getD (order.getD k 0) []) ∧
      (∀ b, b < cfg.n_bins →
        (executeGrouped cfg h).1.mbias.getD b 0
          = (cfg.ranked_cal.getD (searchsorted cfg.weights h) []).getD b 0) := by
  refine ⟨?_, ?_, ?_, ?_⟩
  · intro mode _ hneq
    rw [setup_ranked_cal, if_neg hneq]
  · rw [setup_ranked_cal, if_pos rfl]
  · intro k hk
    exact getD_map_rows _ order k hk 0 []
  · intro b hb
    show ((List.range cfg.n_bins).map
        (fun m => (cfg.ranked_cal.getD (searchsorted cfg.weights h) []).getD
          m 0)).getD b 0
        = (cfg.ranked_cal.getD (searchsorted cfg.weights h) []).getD b 0
    rw [getD_map_range _ _ b hb 0]

/-- C1 witness: the NameError branch evaluated at mode no-rank, and the
unified branch's permuted biases, at a one-realisation instance. -/
theorem c1_calibration_bias_witness :
    setup_ranked_cal "no-rank" [[1/2]] [0] = none ∧
      setup_ranked_cal "unified" [[1/2]] [0]
        = some (gather [] [[1/2]] [0]) := by
  have h := c1_calibration_bias [[1/2]] [0] ⟨[], [], [], [], 0⟩ 0
  exact ⟨h.1 "no-rank" (by decide) (by decide), h.2.1⟩
